import Mathlib

/-!
# Verification of the Matrix report symbolication tool

Shallow embedding of `symbolicate_matrix_report.py` and proofs about it.

Python strings are modelled as Lean `String` / `List Char`; Python string
primitives (`startswith`, `in`, `lower`, `upper`, `strip`, `os.path.basename`,
`hex`) are re-implemented below as executable Lean functions.  External
processes (`atos`, `dwarfdump`) and the file system are modelled as oracle
parameters, faithfully reproducing how the Python code consumes their results.
-/

/-! ## Python string primitives -/

/-- `listStartsWith s p` is Python's `s.startswith(p)` on character lists. -/
def listStartsWith : List Char → List Char → Bool
  | _, [] => true
  | [], _ :: _ => false
  | c :: cs, p :: ps => (c == p) && listStartsWith cs ps

@[simp] theorem listStartsWith_nil (s : List Char) : listStartsWith s [] = true := by
  cases s <;> rfl

@[simp] theorem listStartsWith_nil_cons (p : Char) (ps : List Char) :
    listStartsWith [] (p :: ps) = false := rfl

@[simp] theorem listStartsWith_cons (c p : Char) (cs ps : List Char) :
    listStartsWith (c :: cs) (p :: ps) = ((c == p) && listStartsWith cs ps) := rfl

/-- `listHasSub s pat` is Python's `pat in s` (substring test) on character lists. -/
def listHasSub (pat : List Char) : List Char → Bool
  | [] => listStartsWith [] pat
  | c :: rest => listStartsWith (c :: rest) pat || listHasSub pat rest

/-- Python `s.startswith(p)`. -/
def strStartsWith (s p : String) : Bool := listStartsWith s.data p.data

/-- Python `p in s` (substring containment). -/
def strHasSub (s p : String) : Bool := listHasSub p.data s.data

/-- ASCII lower-casing of one character (model of Python `str.lower` on the
ASCII strings this program handles). -/
def lowChar (c : Char) : Char :=
  if 'A' ≤ c ∧ c ≤ 'Z' then Char.ofNat (c.toNat + 32) else c

/-- ASCII upper-casing of one character (model of Python `str.upper`). -/
def upChar (c : Char) : Char :=
  if 'a' ≤ c ∧ c ≤ 'z' then Char.ofNat (c.toNat - 32) else c

/-- Python `s.lower()`. -/
def strToLower (s : String) : String := String.mk (s.data.map lowChar)

/-- Python `s.upper()`. -/
def strToUpper (s : String) : String := String.mk (s.data.map upChar)

/-- Python `s.strip()` whitespace set. -/
def pyIsSpace (c : Char) : Bool :=
  c == ' ' || c == '\t' || c == '\n' || c == '\r' || c == '\x0b' || c == '\x0c'

/-- Python `s.strip()`: drop leading and trailing whitespace. -/
def pyStrip (s : String) : String :=
  String.mk (((s.data.dropWhile pyIsSpace).reverse.dropWhile pyIsSpace).reverse)

/-- `os.path.basename`: the part of a POSIX path after the last `/`. -/
def basenameChars (cs : List Char) : List Char :=
  cs.foldl (fun acc c => if c == '/' then [] else acc ++ [c]) []

/-- `os.path.basename` on strings. -/
def basename (s : String) : String := String.mk (basenameChars s.data)

/-- One lowercase hexadecimal digit. -/
def hexChar (n : Nat) : Char :=
  if n = 0 then '0' else if n = 1 then '1' else if n = 2 then '2'
  else if n = 3 then '3' else if n = 4 then '4' else if n = 5 then '5'
  else if n = 6 then '6' else if n = 7 then '7' else if n = 8 then '8'
  else if n = 9 then '9' else if n = 10 then 'a' else if n = 11 then 'b'
  else if n = 12 then 'c' else if n = 13 then 'd' else if n = 14 then 'e'
  else 'f'

/-- Hex digits of `n`, least significant first, with explicit fuel so that the
kernel can evaluate it. -/
def hexRev (fuel : Nat) (n : Nat) : List Char :=
  match fuel with
  | 0 => []
  | fuel + 1 => if n < 16 then [hexChar n] else hexChar (n % 16) :: hexRev fuel (n / 16)

/-- Python `hex(n)` for non-negative `n`: `"0x"` followed by lowercase hex digits. -/
def pyHex (n : Nat) : String := String.mk ('0' :: 'x' :: (hexRev (n + 1) n).reverse)

/-! ## Data model (§3 of the report schema) -/

/-- One entry of the report's `binary_images` list. -/
structure BinaryImage where
  name : String
  image_addr : Nat
  image_size : Nat
  uuid : String
deriving DecidableEq

/-- One stack frame of a thread's `backtrace.contents`. -/
structure Frame where
  object_name : String
  symbol_name : Option String
  instruction_addr : Nat
deriving DecidableEq

/-- One entry of the report's `crash.threads` list.  A missing `index` key is
`none` (the Python code substitutes the display placeholder `"?"`, which never
compares equal to `0`); a missing `name` key defaults to the placeholder. -/
structure Thread where
  index : Option Nat
  name : Option String
  crashed : Bool
  frames : List Frame
deriving DecidableEq

/-- The parsed report (the fields this engine reads). -/
structure CrashReport where
  binary_images : List BinaryImage
  threads : List Thread
deriving DecidableEq

/-! ## Image Map: `find_library_for_address` (source lines 217-250) -/

/-- Translation of `find_library_for_address`: linear scan of `binary_images`,
first image whose `[image_addr, image_addr + image_size)` range contains the
address wins, and its basename is simplified by the fixed rule chain. -/
def find_library_for_address (address : Nat) : List BinaryImage → Option String
  | [] => none
  | image :: rest =>
    if image.image_addr ≤ address ∧ address < image.image_addr + image.image_size then
      let base_name := basename image.name
      some (if strStartsWith base_name "libsystem_" then "libsystem_*"
        else if strStartsWith base_name "libobjc" then "libobjc (Obj-C Runtime)"
        else if strStartsWith base_name "libdispatch" then "libdispatch (GCD)"
        else if strHasSub base_name "UIKitCore" || strHasSub base_name "UIKit" then "UIKit"
        else if strHasSub base_name "CoreFoundation" then "CoreFoundation"
        else if strHasSub base_name "Foundation" then "Foundation"
        else if strHasSub base_name "QuartzCore" then "QuartzCore"
        else if strHasSub base_name "GraphicsServices" then "GraphicsServices"
        else if strHasSub (strToLower base_name) "dyld" then "dyld (动态链接器)"
        else base_name)
    else find_library_for_address address rest

/-- Spec-side containment test: `I.image_addr <= a < I.image_addr + I.image_size`. -/
def specContains (a : Nat) (i : BinaryImage) : Bool :=
  decide (i.image_addr ≤ a) && decide (a < i.image_addr + i.image_size)

/-- Spec-side label derivation: the fixed ordered rule table over the image's
basename, first rule wins. -/
def specDeriveLabel (i : BinaryImage) : String :=
  let base_name := basename i.name
  if strStartsWith base_name "libsystem_" then "libsystem_*"
  else if strStartsWith base_name "libobjc" then "libobjc (Obj-C Runtime)"
  else if strStartsWith base_name "libdispatch" then "libdispatch (GCD)"
  else if strHasSub base_name "UIKitCore" || strHasSub base_name "UIKit" then "UIKit"
  else if strHasSub base_name "CoreFoundation" then "CoreFoundation"
  else if strHasSub base_name "Foundation" then "Foundation"
  else if strHasSub base_name "QuartzCore" then "QuartzCore"
  else if strHasSub base_name "GraphicsServices" then "GraphicsServices"
  else if strHasSub (strToLower base_name) "dyld" then "dyld (动态链接器)"
  else base_name

theorem find_library_eq_find (address : Nat) (images : List BinaryImage) :
    find_library_for_address address images =
      (images.find? (specContains address)).map specDeriveLabel := by
  induction images with
  | nil => rfl
  | cons img rest ih =>
    by_cases h : img.image_addr ≤ address ∧ address < img.image_addr + img.image_size
    · rw [find_library_for_address, if_pos h,
        List.find?_cons_of_pos _ (by simp [specContains, h.1, h.2])]
      rfl
    · rw [find_library_for_address, if_neg h, List.find?_cons_of_neg, ih]
      simp only [specContains, Bool.and_eq_true, decide_eq_true_eq]
      exact fun hc => h ⟨hc.1, hc.2⟩

/-- C1: for every list of binary images and every address, the Image Map
returns the derived label (fixed ordered rule table over the basename) of the
first image in declaration order whose range contains the address; it returns
`none` when no image contains the address, and an image with `image_size = 0`
never satisfies the containment test. -/
theorem c1_image_map (address : Nat) (images : List BinaryImage) :
    (find_library_for_address address images =
      (images.find? (specContains address)).map specDeriveLabel)
    ∧ ((∀ i ∈ images, specContains address i = false) →
        find_library_for_address address images = none)
    ∧ (∀ i : BinaryImage, i.image_size = 0 → specContains address i = false) := by
  refine ⟨find_library_eq_find address images, fun hnone => ?_, fun i hz => ?_⟩
  · rw [find_library_eq_find, List.find?_eq_none.mpr]
    · rfl
    · intro i hi hmem
      exact absurd hmem (by simp [hnone i hi])
  · simp only [specContains, hz, Nat.add_zero, Bool.and_eq_false_iff,
      decide_eq_false_iff_not, Nat.not_le, Nat.not_lt]
    omega

/-- Witness for `c1_image_map` at concrete inputs. -/
theorem c1_image_map_witness :
    (find_library_for_address 4100
        [⟨"/usr/lib/libobjc.A.dylib", 4096, 100, "U1"⟩] =
      ([⟨"/usr/lib/libobjc.A.dylib", 4096, 100, "U1"⟩].find? (specContains 4100)).map
        specDeriveLabel)
    ∧ specContains 4100 ⟨"/zero", 4096, 0, "U2"⟩ = false := by
  refine ⟨(c1_image_map 4100 _).1, (c1_image_map 4100 []).2.2 ⟨"/zero", 4096, 0, "U2"⟩ rfl⟩

/-! ## Frame Classifier (source lines 474-494) -/

/-- The fixed monitoring-framework file-name prefix tuple (`framework_files`
in the source). -/
def framework_files : List String :=
  ["KSCrash", "KS", "WCCrash", "WCBlock", "WCMemory", "WCFPS", "WCDump",
   "MatrixAdapter", "MatrixPlugin", "MatrixIssue", "MatrixLog", "MatrixDevice",
   "MatrixPath", "MatrixBase", "MatrixAppReboot",
   "logger_", "memory_", "stack_", "object_"]

/-- Translation of the per-frame classification of a successfully resolved
frame: with a parsed source file, the frame is framework code when the file
name starts with one of the fixed prefixes (`is_app_code = not is_framework`);
with no parsed source file the frame counts as application code. -/
def is_app_code (file_name : Option String) : Bool :=
  match file_name with
  | some f => ! (framework_files.any (fun p => strStartsWith f p))
  | none => true

theorem listStartsWith_iff (p : List Char) :
    ∀ s : List Char, listStartsWith s p = true ↔ ∃ r, s = p ++ r := by
  induction p with
  | nil => intro s; simp
  | cons c cs ih =>
    intro s
    cases s with
    | nil => simp
    | cons a as =>
      simp only [listStartsWith_cons, Bool.and_eq_true, beq_iff_eq, ih as,
        List.cons_append, List.cons.injEq]
      constructor
      · rintro ⟨rfl, r, rfl⟩; exact ⟨r, rfl, rfl⟩
      · rintro ⟨r, rfl, rfl⟩; exact ⟨rfl, r, rfl⟩

/-- C5: a resolved frame with a parsed source file is classified as framework
code exactly when the file name starts with one of the fixed
monitoring-framework prefixes, and as application code otherwise; a resolved
frame with no parsed source file is classified as application code. -/
theorem c5_frame_classifier (f : String) :
    (is_app_code (some f) = false ↔
      ∃ p ∈ framework_files, ∃ r, f.data = p.data ++ r)
    ∧ is_app_code none = true := by
  constructor
  · simp only [is_app_code, Bool.not_eq_false', List.any_eq_true, strStartsWith]
    constructor
    · rintro ⟨p, hp, hs⟩
      exact ⟨p, hp, (listStartsWith_iff p.data f.data).mp hs⟩
    · rintro ⟨p, hp, r, hr⟩
      exact ⟨p, hp, (listStartsWith_iff p.data f.data).mpr ⟨r, hr⟩⟩
  · rfl

/-! ## Symbol Resolver: `symbolicate_address` (source lines 161-193) -/

/-- Result of one `subprocess.run` invocation of the external symbolizer:
exit code and captured standard output.  `none` at the call site models a
timeout or other raised exception (the `except` path of the source). -/
structure AtosResult where
  returncode : Int
  stdout : String

/-- Translation of `symbolicate_address`: on exit code 0 the stripped stdout
is returned provided it is non-empty, differs from `hex(target_addr)` and
does not contain the substring `"0x"`; every other case yields `none`. -/
def symbolicate_address (res : Option AtosResult) (target_addr : Nat) : Option String :=
  match res with
  | none => none
  | some r =>
    if r.returncode = 0 then
      let symbol := pyStrip r.stdout
      if symbol ≠ "" ∧ symbol ≠ pyHex target_addr ∧ strHasSub symbol "0x" = false then
        some symbol
      else none
    else none

theorem pyHex_hasSub (n : Nat) : strHasSub (pyHex n) "0x" = true := by
  have h2 : "0x".data = ['0', 'x'] := rfl
  unfold strHasSub pyHex
  rw [h2]
  simp [listHasSub]

theorem symbolicate_address_eq (r : AtosResult) (t : Nat) :
    symbolicate_address (some r) t =
      if r.returncode = 0 ∧ pyStrip r.stdout ≠ "" ∧
          strHasSub (pyStrip r.stdout) "0x" = false
      then some (pyStrip r.stdout) else none := by
  unfold symbolicate_address
  by_cases hrc : r.returncode = 0
  · simp only [hrc, if_true]
    by_cases hx : strHasSub (pyStrip r.stdout) "0x" = false
    · by_cases he : pyStrip r.stdout = ""
      · simp [he, hx]
      · have hhex : pyStrip r.stdout ≠ pyHex t := by
          intro hc
          rw [hc, pyHex_hasSub] at hx
          exact Bool.true_eq_false.mp hx
        simp [he, hx, hhex]
    · simp [hx]
  · simp [hrc]

/-- C2 counterexample: an invocation that exits 0 with non-empty output that
is not the echoed hex address — but contains `"0x"` — is still unresolved,
contradicting the claim that those four cases are the only unresolved ones. -/
theorem c2_counterexample :
    symbolicate_address (some ⟨0, "foo+0x4 (in App)"⟩) 4096 = none
    ∧ pyStrip "foo+0x4 (in App)" ≠ ""
    ∧ pyStrip "foo+0x4 (in App)" ≠ pyHex 4096 := by
  refine ⟨?_, by decide, by decide⟩
  rw [symbolicate_address_eq]
  simp only [ite_eq_right_iff]
  intro h
  exact absurd h.2.2 (by decide)

/-- C2 (amended): the Symbol Resolver returns `Unresolved` exactly when the
symbolizer times out, exits non-zero, produces output that strips to the
empty string, or produces output containing the substring `"0x"` (which
subsumes the echoed-hex-address case); in every other case the stripped raw
output is returned. -/
theorem c2_amended (res : Option AtosResult) (target_addr : Nat) (s : String) :
    symbolicate_address res target_addr = some s ↔
      ∃ r : AtosResult, res = some r ∧ r.returncode = 0 ∧ s = pyStrip r.stdout ∧
        pyStrip r.stdout ≠ "" ∧ strHasSub (pyStrip r.stdout) "0x" = false := by
  cases res with
  | none =>
    simp [symbolicate_address]
  | some r =>
    rw [symbolicate_address_eq]
    by_cases hc : r.returncode = 0 ∧ pyStrip r.stdout ≠ "" ∧
        strHasSub (pyStrip r.stdout) "0x" = false
    · rw [if_pos hc]
      simp only [Option.some.injEq]
      constructor
      · rintro rfl
        exact ⟨r, rfl, hc.1, rfl, hc.2.1, hc.2.2⟩
      · rintro ⟨r', hr', _, rfl, _, _⟩
        cases hr'
        rfl
    · rw [if_neg hc]
      constructor
      · intro h; exact absurd h (by simp)
      · rintro ⟨r', hr', h1, rfl, h2, h3⟩
        cases hr'
        exact absurd ⟨h1, h2, h3⟩ hc

/-! ## Report Walker thread selection (source lines 326-385) -/

/-- The hard-coded application binary name (`app_name` in the source). -/
def app_name : String := "MatrixTestApp"

/-- A thread has application code when at least one frame's `object_name`
contains the application binary name. -/
def hasAppCode (t : Thread) : Bool :=
  t.frames.any (fun f => strHasSub f.object_name app_name)

/-- The main-thread test: index 0, or name containing `"main"`
case-insensitively (the source lower-cases the name, defaulting a missing
name to the placeholder `"未命名"`). -/
def isMainThread (t : Thread) : Bool :=
  decide (t.index = some 0) || strHasSub (strToLower (t.name.getD "未命名")) "main"

/-- The loop state of the thread scan: last seen main thread, last seen
crashed thread, and the accumulated application-code threads in order. -/
structure ScanState where
  main_thread : Option Thread
  crashed_thread : Option Thread
  app_code_threads : List Thread

/-- One iteration of the scanning `for` loop over `threads`. -/
def scanStep (st : ScanState) (t : Thread) : ScanState :=
  { main_thread := if isMainThread t then some t else st.main_thread
    crashed_thread := if t.crashed then some t else st.crashed_thread
    app_code_threads :=
      if hasAppCode t then st.app_code_threads ++ [t] else st.app_code_threads }

/-- The full scanning loop, started from the empty state. -/
def scanThreads (threads : List Thread) : ScanState :=
  threads.foldl scanStep ⟨none, none, []⟩

/-- Translation of the `threads_to_show` construction: main thread first,
then the crashed thread when it differs from the main thread (Python value
equality under `!=` and `not in`), then every application-code thread not
already shown. -/
def threadsToShow (threads : List Thread) : List Thread :=
  let st := scanThreads threads
  (match st.main_thread with
   | some m => [m]
   | none => [])
  ++ (match st.crashed_thread with
      | some c =>
        match st.main_thread with
        | some m => if c = m then [] else [c]
        | none => [c]
      | none => [])
  ++ st.app_code_threads.filter
      (fun t => !(decide (st.main_thread = some t) || decide (st.crashed_thread = some t)))

theorem foldl_scan_main (ts : List Thread) : ∀ st : ScanState,
    (ts.foldl scanStep st).main_thread =
      match ts.reverse.find? isMainThread with
      | some m => some m
      | none => st.main_thread := by
  induction ts with
  | nil => intro st; rfl
  | cons t ts ih =>
    intro st
    rw [List.foldl_cons, ih, List.reverse_cons, List.find?_append]
    cases hf : ts.reverse.find? isMainThread with
    | some m => rfl
    | none =>
      by_cases hm : isMainThread t
      · simp [List.find?, hm, Option.or, scanStep]
      · simp [List.find?, hm, Option.or, scanStep]

theorem foldl_scan_crashed (ts : List Thread) : ∀ st : ScanState,
    (ts.foldl scanStep st).crashed_thread =
      match ts.reverse.find? (fun t => t.crashed) with
      | some c => some c
      | none => st.crashed_thread := by
  induction ts with
  | nil => intro st; rfl
  | cons t ts ih =>
    intro st
    rw [List.foldl_cons, ih, List.reverse_cons, List.find?_append]
    cases hf : ts.reverse.find? (fun t => t.crashed) with
    | some c => rfl
    | none =>
      by_cases hc : t.crashed
      · simp [List.find?, hc, Option.or, scanStep]
      · simp [List.find?, hc, Option.or, scanStep]

theorem foldl_scan_app (ts : List Thread) : ∀ st : ScanState,
    (ts.foldl scanStep st).app_code_threads =
      st.app_code_threads ++ ts.filter hasAppCode := by
  induction ts with
  | nil => intro st; simp
  | cons t ts ih =>
    intro st
    rw [List.foldl_cons, ih]
    by_cases ha : hasAppCode t
    · simp [scanStep, ha, List.filter_cons]
    · simp [scanStep, ha, List.filter_cons]

theorem scanThreads_main (threads : List Thread) :
    (scanThreads threads).main_thread = threads.reverse.find? isMainThread := by
  rw [scanThreads, foldl_scan_main]
  cases threads.reverse.find? isMainThread <;> rfl

theorem scanThreads_crashed (threads : List Thread) :
    (scanThreads threads).crashed_thread = threads.reverse.find? (fun t => t.crashed) := by
  rw [scanThreads, foldl_scan_crashed]
  cases threads.reverse.find? (fun t => t.crashed) <;> rfl

theorem scanThreads_app (threads : List Thread) :
    (scanThreads threads).app_code_threads = threads.filter hasAppCode := by
  rw [scanThreads, foldl_scan_app]
  rfl

/-- C4: the Report Walker selects, in order: the main thread (index 0 or name
containing "main" case-insensitively; the last such thread in declaration
order is the one retained by the scan), then the crashed thread when distinct
from the main thread, then each remaining application-code thread in
declaration order.  When a crashed thread distinct from the main thread
exists, both are selected with the main thread first; the selection is empty
exactly when no thread qualifies. -/
theorem c4_thread_selection (threads : List Thread) :
    (threadsToShow threads =
      (match threads.reverse.find? isMainThread with
       | some m => [m]
       | none => [])
      ++ (match threads.reverse.find? (fun t => t.crashed),
            threads.reverse.find? isMainThread with
          | some c, some m => if c = m then [] else [c]
          | some c, none => [c]
          | none, _ => [])
      ++ (threads.filter hasAppCode).filter
          (fun t => !(decide (threads.reverse.find? isMainThread = some t)
              || decide (threads.reverse.find? (fun t => t.crashed) = some t))))
    ∧ (∀ m c : Thread, threads.reverse.find? isMainThread = some m →
        threads.reverse.find? (fun t => t.crashed) = some c → c ≠ m →
        ∃ rest, threadsToShow threads = m :: c :: rest)
    ∧ (threadsToShow threads = [] ↔
        ∀ t ∈ threads, isMainThread t = false ∧ t.crashed = false ∧ hasAppCode t = false) := by
  have hmain := scanThreads_main threads
  have hcr := scanThreads_crashed threads
  have happ := scanThreads_app threads
  have hshow : threadsToShow threads =
      (match threads.reverse.find? isMainThread with
       | some m => [m]
       | none => [])
      ++ (match threads.reverse.find? (fun t => t.crashed),
            threads.reverse.find? isMainThread with
          | some c, some m => if c = m then [] else [c]
          | some c, none => [c]
          | none, _ => [])
      ++ (threads.filter hasAppCode).filter
          (fun t => !(decide (threads.reverse.find? isMainThread = some t)
              || decide (threads.reverse.find? (fun t => t.crashed) = some t))) := by
    rw [threadsToShow]
    rw [hmain, hcr, happ]
    cases threads.reverse.find? (fun t => t.crashed) <;>
      cases threads.reverse.find? isMainThread <;> rfl
  refine ⟨hshow, ?_, ?_⟩
  · intro m c hm hc hne
    have heq : threadsToShow threads = [m] ++ [c] ++ (threads.filter hasAppCode).filter
        (fun t => !(decide (threads.reverse.find? isMainThread = some t)
            || decide (threads.reverse.find? (fun t => t.crashed) = some t))) := by
      rw [hshow, hm, hc]
      simp [hne]
    exact ⟨_, heq⟩
  · rw [hshow]
    constructor
    · intro h
      rw [List.append_eq_nil, List.append_eq_nil] at h
      obtain ⟨⟨h1, h2⟩, h3⟩ := h
      have hm : threads.reverse.find? isMainThread = none := by
        cases hf : threads.reverse.find? isMainThread with
        | none => rfl
        | some m => rw [hf] at h1; exact absurd h1 (by simp)
      have hc : threads.reverse.find? (fun t => t.crashed) = none := by
        cases hf : threads.reverse.find? (fun t => t.crashed) with
        | none => rfl
        | some c => rw [hf, hm] at h2; exact absurd h2 (by simp)
      rw [hm, hc] at h3
      simp only [List.filter_eq_nil_iff] at h3
      rw [List.find?_eq_none] at hm hc
      intro t ht
      refine ⟨?_, ?_, ?_⟩
      · have := hm t (by simpa using ht)
        simpa using this
      · have := hc t (by simpa using ht)
        simpa using this
      · by_cases hap : hasAppCode t
        · have := h3 t (List.mem_filter.mpr ⟨ht, hap⟩)
          simp at this
        · simpa using hap
    · intro h
      have hm : threads.reverse.find? isMainThread = none := by
        rw [List.find?_eq_none]
        intro t ht
        simp [(h t (by simpa using ht)).1]
      have hc : threads.reverse.find? (fun t => t.crashed) = none := by
        rw [List.find?_eq_none]
        intro t ht
        simp [(h t (by simpa using ht)).2.1]
      have ha : threads.filter hasAppCode = [] := by
        rw [List.filter_eq_nil_iff]
        intro t ht
        simp [(h t ht).2.2]
      rw [hm, hc, ha]
      rfl

/-- Witness for `c4_thread_selection`: a report with a main thread and a
distinct crashed thread selects both, main thread first. -/
theorem c4_thread_selection_witness :
    ∃ rest, threadsToShow
      [⟨some 0, some "com.apple.main-thread", false, []⟩,
       ⟨some 3, none, true, []⟩] =
      ⟨some 0, some "com.apple.main-thread", false, []⟩ ::
      ⟨some 3, none, true, []⟩ :: rest := by
  exact (c4_thread_selection _).2.1 _ _ (by decide) (by decide) (by decide)

/-! ## Binary Locator: `find_app_binary` (source lines 17-146) -/

/-- Oracles for the Binary Locator's external collaborators: the file system
(`os.path.exists`), the candidate search (`find_all_possible_binaries`,
already sorted most-recently-modified first), and the UUID string the
`dwarfdump` output parser extracts for a path (`none`: extraction failed). -/
structure LocEnv where
  pathExists : String → Bool
  candidates : List String
  rawUuid : String → Option String

/-- Translation of `get_binary_uuid`: the extracted UUID upper-cased, or
`None` when the external extraction failed. -/
def get_binary_uuid (env : LocEnv) (path : String) : Option String :=
  (env.rawUuid path).map strToUpper

/-- The known application-binary name forms checked at step 1. -/
def appNameForms : List String :=
  ["MatrixTestApp", "MatrixTestApp.app", "MatrixTestApp.app/MatrixTestApp"]

/-- Step-1 test: the image's basename is one of the known forms. -/
def isAppImage (img : BinaryImage) : Bool := appNameForms.contains (basename img.name)

/-- The declared identity recorded from the report: original path, load
address, upper-cased UUID. -/
structure Identity where
  simulator_path : String
  load_addr : Nat
  report_uuid : String
deriving DecidableEq

/-- Python `min(binary_images, key=lambda x: x.get('image_addr', ...))`:
first image with the smallest load address. -/
def minByAddr : List BinaryImage → Option BinaryImage
  | [] => none
  | i :: rest =>
    some (rest.foldl (fun best x => if x.image_addr < best.image_addr then x else best) i)

/-- The identity-recording loop and fallback of `find_app_binary` (source
lines 67-82): first name-matching image; then, because `if not load_addr`
is a Python truthiness test, the smallest-address fallback overwrites the
recorded identity whenever the recorded `load_addr` is 0 or nothing was
recorded (the fallback requires a non-empty image list). -/
def recordedIdentity (images : List BinaryImage) : Option Identity :=
  match images.find? isAppImage with
  | some img =>
    if img.image_addr ≠ 0 then some ⟨img.name, img.image_addr, strToUpper img.uuid⟩
    else
      match minByAddr images with
      | some fi => some ⟨fi.name, fi.image_addr, strToUpper fi.uuid⟩
      | none => none
  | none =>
    match minByAddr images with
    | some fi => some ⟨fi.name, fi.image_addr, strToUpper fi.uuid⟩
    | none => none

/-- The identity phase of `find_app_binary` (source lines 67-86): the
recorded identity, filtered by the final `if not load_addr` truthiness test
that returns the not-found result when `load_addr` is still 0. -/
def declaredIdentity (images : List BinaryImage) : Option Identity :=
  match recordedIdentity images with
  | some idn => if idn.load_addr = 0 then none else some idn
  | none => none

/-- One candidate test of the UUID-matching loop (source lines 117-129):
the computed UUID is truthy and equal to the report's UUID. -/
def candMatches (env : LocEnv) (report_uuid : String) (c : String) : Bool :=
  match get_binary_uuid env c with
  | some u => decide (u ≠ "") && decide (u = report_uuid)
  | none => false

/-- The `for candidate in candidates` loop: first match short-circuits. -/
def searchCandidates (env : LocEnv) (report_uuid : String) : List String → Option String
  | [] => none
  | c :: cs =>
    if candMatches env report_uuid c then some c
    else searchCandidates env report_uuid cs

/-- Translation of `find_app_binary` (source lines 58-146): declared identity,
then the report path if it exists on disk, then the candidate list (empty →
`(None, load_addr)`), then the UUID match when a UUID was declared, then the
most-recently-modified candidate. -/
def find_app_binary (env : LocEnv) (images : List BinaryImage) : Option String × Option Nat :=
  match declaredIdentity images with
  | none => (none, none)
  | some idn =>
    if idn.simulator_path ≠ "" ∧ env.pathExists idn.simulator_path = true then
      (some idn.simulator_path, some idn.load_addr)
    else
      match env.candidates with
      | [] => (none, some idn.load_addr)
      | c0 :: _ =>
        if idn.report_uuid ≠ "" then
          match searchCandidates env idn.report_uuid env.candidates with
          | some cand => (some cand, some idn.load_addr)
          | none => (some c0, some idn.load_addr)
        else (some c0, some idn.load_addr)

theorem foldl_minBy_le (rest : List BinaryImage) : ∀ b : BinaryImage,
    (rest.foldl (fun best x => if x.image_addr < best.image_addr then x else best) b).image_addr
      ≤ b.image_addr
    ∧ ∀ i ∈ rest,
      (rest.foldl (fun best x => if x.image_addr < best.image_addr then x else best) b).image_addr
        ≤ i.image_addr := by
  induction rest with
  | nil => intro b; exact ⟨Nat.le_refl _, by simp⟩
  | cons x rest ih =>
    intro b
    rw [List.foldl_cons]
    have hb : (if x.image_addr < b.image_addr then x else b).image_addr ≤ b.image_addr := by
      by_cases h : x.image_addr < b.image_addr
      · rw [if_pos h]; exact Nat.le_of_lt h
      · rw [if_neg h]
    have hx : (if x.image_addr < b.image_addr then x else b).image_addr ≤ x.image_addr := by
      by_cases h : x.image_addr < b.image_addr
      · rw [if_pos h]
      · rw [if_neg h]; exact Nat.le_of_not_lt h
    refine ⟨Nat.le_trans (ih _).1 hb, ?_⟩
    intro i hi
    rcases List.mem_cons.mp hi with rfl | hi
    · exact Nat.le_trans (ih _).1 hx
    · exact (ih _).2 i hi

theorem minByAddr_le (images : List BinaryImage) (m : BinaryImage)
    (h : minByAddr images = some m) : ∀ i ∈ images, m.image_addr ≤ i.image_addr := by
  cases images with
  | nil => cases h
  | cons b rest =>
    intro i hi
    rw [minByAddr] at h
    injection h with h
    rcases List.mem_cons.mp hi with rfl | hi
    · rw [← h]; exact (foldl_minBy_le rest i).1
    · rw [← h]; exact (foldl_minBy_le rest b).2 i hi

theorem declaredIdentity_of_match (images : List BinaryImage) (img : BinaryImage)
    (h : images.find? isAppImage = some img) (hz : img.image_addr ≠ 0) :
    declaredIdentity images = some ⟨img.name, img.image_addr, strToUpper img.uuid⟩ := by
  have hrec : recordedIdentity images =
      some ⟨img.name, img.image_addr, strToUpper img.uuid⟩ := by
    simp only [recordedIdentity, h]
    rw [if_pos hz]
  simp only [declaredIdentity, hrec]
  rw [if_neg hz]

theorem declaredIdentity_of_match_zero (images : List BinaryImage) (img : BinaryImage)
    (h : images.find? isAppImage = some img) (hz : img.image_addr = 0) :
    declaredIdentity images = none := by
  have hmem : img ∈ images := List.mem_of_find?_eq_some h
  obtain ⟨m, hm⟩ : ∃ m, minByAddr images = some m := by
    cases images with
    | nil => cases hmem
    | cons b rest => exact ⟨_, rfl⟩
  have hm0 : m.image_addr = 0 := by
    have := minByAddr_le images m hm img hmem
    omega
  have hrec : recordedIdentity images = some ⟨m.name, m.image_addr, strToUpper m.uuid⟩ := by
    simp only [recordedIdentity, h]
    rw [if_neg (by simp [hz]), hm]
  simp only [declaredIdentity, hrec]
  rw [if_pos hm0]

theorem declaredIdentity_of_nomatch (images : List BinaryImage)
    (h : images.find? isAppImage = none) :
    declaredIdentity images =
      match minByAddr images with
      | some fi =>
        if fi.image_addr = 0 then none else some ⟨fi.name, fi.image_addr, strToUpper fi.uuid⟩
      | none => none := by
  have hrec : recordedIdentity images =
      match minByAddr images with
      | some fi => some ⟨fi.name, fi.image_addr, strToUpper fi.uuid⟩
      | none => none := by
    simp only [recordedIdentity, h]
  rw [declaredIdentity, hrec]
  cases hm : minByAddr images with
  | none => rfl
  | some fi => rfl

theorem declaredIdentity_load_ne_zero (images : List BinaryImage) (idn : Identity)
    (h : declaredIdentity images = some idn) : idn.load_addr ≠ 0 := by
  cases hrec : recordedIdentity images with
  | none => simp only [declaredIdentity, hrec] at h; cases h
  | some j =>
    simp only [declaredIdentity, hrec] at h
    by_cases hz : j.load_addr = 0
    · rw [if_pos hz] at h; cases h
    · rw [if_neg hz] at h; cases h; exact hz

theorem strToUpper_ne_empty {s : String} (h : s ≠ "") : strToUpper s ≠ "" := by
  intro hc
  apply h
  have h1 : (strToUpper s).data = ("" : String).data := by rw [hc]
  have h2 : s.data.map upChar = [] := h1
  have h3 : s.data = [] := by
    cases hd : s.data with
    | nil => rfl
    | cons a as => rw [hd] at h2; simp at h2
  cases s with
  | mk d => cases h3; rfl

theorem searchCandidates_eq_find (env : LocEnv) (r : String) (l : List String) :
    searchCandidates env r l = l.find? (candMatches env r) := by
  induction l with
  | nil => rfl
  | cons c cs ih =>
    rw [searchCandidates]
    by_cases hc : candMatches env r c = true
    · rw [if_pos hc, List.find?_cons_of_pos _ hc]
    · rw [if_neg hc, List.find?_cons_of_neg _ hc, ih]

theorem find_app_binary_snd (env : LocEnv) (images : List BinaryImage) (idn : Identity)
    (hd : declaredIdentity images = some idn) :
    (find_app_binary env images).2 = some idn.load_addr := by
  simp only [find_app_binary, hd]
  by_cases hpath : idn.simulator_path ≠ "" ∧ env.pathExists idn.simulator_path = true
  · rw [if_pos hpath]
  · rw [if_neg hpath]
    cases hc : env.candidates with
    | nil => simp only [hc]
    | cons c0 cs =>
      simp only [hc]
      by_cases hu : idn.report_uuid ≠ ""
      · rw [if_pos hu]
        cases hs : searchCandidates env idn.report_uuid (c0 :: cs) <;> simp [hs]
      · rw [if_neg hu]

/-- C6 counterexample: with a name-matching image whose `image_addr` is 0,
the locator does not record that image as the declared identity — the
truthiness test `if not load_addr` sends it into the fallback, which (the
smallest address being 0) yields the not-found result. -/
theorem c6_counterexample :
    ([⟨"MatrixTestApp", 0, 100, "U1"⟩,
      ⟨"/usr/lib/libfoo.dylib", 5, 10, "U2"⟩].find? isAppImage
      = some ⟨"MatrixTestApp", 0, 100, "U1"⟩)
    ∧ declaredIdentity [⟨"MatrixTestApp", 0, 100, "U1"⟩,
        ⟨"/usr/lib/libfoo.dylib", 5, 10, "U2"⟩] = none := by
  decide

/-- C6 (amended): the Binary Locator records the first name-matching image as
the report's declared identity when that image's `image_addr` is non-zero; a
name-matching image with `image_addr = 0` instead triggers the
smallest-address fallback, which then fails (the smallest address being 0);
and only when no image's basename matches does the smallest-address fallback
determine the identity (failing when the smallest address is 0). -/
theorem c6_amended :
    (∀ (images : List BinaryImage) (img : BinaryImage),
        images.find? isAppImage = some img → img.image_addr ≠ 0 →
        declaredIdentity images = some ⟨img.name, img.image_addr, strToUpper img.uuid⟩)
    ∧ (∀ (images : List BinaryImage) (img : BinaryImage),
        images.find? isAppImage = some img → img.image_addr = 0 →
        declaredIdentity images = none)
    ∧ (∀ images : List BinaryImage, images.find? isAppImage = none →
        declaredIdentity images =
          match minByAddr images with
          | some fi => if fi.image_addr = 0 then none
              else some ⟨fi.name, fi.image_addr, strToUpper fi.uuid⟩
          | none => none) :=
  ⟨declaredIdentity_of_match, declaredIdentity_of_match_zero, declaredIdentity_of_nomatch⟩

/-- Witness for `c6_amended` at a concrete report. -/
theorem c6_amended_witness :
    declaredIdentity [⟨"/X/MatrixTestApp", 4096, 100, "abc"⟩] =
      some ⟨"/X/MatrixTestApp", 4096, strToUpper "abc"⟩ :=
  c6_amended.1 [⟨"/X/MatrixTestApp", 4096, 100, "abc"⟩]
    ⟨"/X/MatrixTestApp", 4096, 100, "abc"⟩ (by decide) (by decide)

/-- C10: whenever `find_app_binary` returns a non-null binary path the
returned load address is non-zero; a name-matching image with `image_addr =
0` never yields a step-1 success but makes the whole locator return the
not-found pair; and with no name match at all, a smallest image address of 0
also yields the not-found pair. -/
theorem c10_nonzero_load :
    (∀ (env : LocEnv) (images : List BinaryImage) (p : String) (a : Option Nat),
        find_app_binary env images = (some p, a) → ∃ n, a = some n ∧ n ≠ 0)
    ∧ (∀ (env : LocEnv) (images : List BinaryImage) (img : BinaryImage),
        images.find? isAppImage = some img → img.image_addr = 0 →
        find_app_binary env images = (none, none))
    ∧ (∀ (env : LocEnv) (images : List BinaryImage) (m : BinaryImage),
        images.find? isAppImage = none → minByAddr images = some m → m.image_addr = 0 →
        find_app_binary env images = (none, none)) := by
  refine ⟨?_, ?_, ?_⟩
  · intro env images p a hfb
    cases hd : declaredIdentity images with
    | none =>
      simp only [find_app_binary, hd] at hfb
      exact absurd hfb (by simp)
    | some idn =>
      have hsnd := find_app_binary_snd env images idn hd
      rw [hfb] at hsnd
      exact ⟨idn.load_addr, hsnd, declaredIdentity_load_ne_zero images idn hd⟩
  · intro env images img hf hz
    have hd := declaredIdentity_of_match_zero images img hf hz
    simp [find_app_binary, hd]
  · intro env images m hf hm hm0
    have hd : declaredIdentity images = none := by
      rw [declaredIdentity_of_nomatch images hf]
      simp only [hm]
      rw [if_pos hm0]
    simp [find_app_binary, hd]

/-- Witness for `c10_nonzero_load` at a concrete locator run. -/
theorem c10_nonzero_load_witness : ∃ n, (some 4096 : Option Nat) = some n ∧ n ≠ 0 :=
  c10_nonzero_load.1 ⟨fun _ => true, [], fun _ => none⟩
    [⟨"/X/MatrixTestApp", 4096, 100, "u"⟩] "/X/MatrixTestApp" (some 4096) (by decide)

/-- C7: when the report declares a (non-empty) UUID and the report path is
not usable on disk, the candidate search returns the first candidate in
most-recently-modified order whose computed UUID equals the declared UUID
case-insensitively — both sides are canonicalized to uppercase before the
comparison, so a candidate differing only in letter case matches — and the
remaining candidates are not consulted. -/
theorem c7_uuid_case_insensitive
    (env : LocEnv) (images : List BinaryImage) (img : BinaryImage)
    (cand raw : String) (pre post : List String)
    (h0 : images.find? isAppImage = some img)
    (h1 : img.image_addr ≠ 0)
    (h2 : ¬(img.name ≠ "" ∧ env.pathExists img.name = true))
    (h3 : env.candidates = pre ++ cand :: post)
    (h4 : ∀ c ∈ pre, candMatches env (strToUpper img.uuid) c = false)
    (h5 : env.rawUuid cand = some raw)
    (h6 : raw ≠ "")
    (h7 : strToUpper raw = strToUpper img.uuid) :
    find_app_binary env images = (some cand, some img.image_addr) := by
  have hd := declaredIdentity_of_match images img h0 h1
  have hne : strToUpper img.uuid ≠ "" := by
    rw [← h7]; exact strToUpper_ne_empty h6
  have hmatch : candMatches env (strToUpper img.uuid) cand = true := by
    simp [candMatches, get_binary_uuid, h5, h7, hne]
  have hsearch : searchCandidates env (strToUpper img.uuid) env.candidates = some cand := by
    rw [h3, searchCandidates_eq_find, List.find?_append]
    have hpre : pre.find? (candMatches env (strToUpper img.uuid)) = none :=
      List.find?_eq_none.mpr (by intro c hc; simp [h4 c hc])
    rw [hpre, List.find?_cons_of_pos _ hmatch]
    rfl
  simp only [find_app_binary, hd]
  rw [if_neg h2]
  cases hc : env.candidates with
  | nil =>
    rw [hc] at h3
    exact absurd h3.symm (by simp)
  | cons c0 cs =>
    rw [hc] at hsearch
    simp only [hc]
    rw [if_pos hne]
    simp only [hsearch]

/-- Witness for `c7_uuid_case_insensitive`: the second candidate's UUID
differs from the declared one only in letter case and is matched. -/
theorem c7_uuid_case_insensitive_witness :
    find_app_binary
      ⟨fun _ => false, ["old", "new"],
        fun c => if c = "new" then some "aBcD-12" else none⟩
      [⟨"/app/MatrixTestApp", 4096, 100, "AbCd-12"⟩] =
      (some "new", some 4096) :=
  c7_uuid_case_insensitive
    ⟨fun _ => false, ["old", "new"],
      fun c => if c = "new" then some "aBcD-12" else none⟩
    [⟨"/app/MatrixTestApp", 4096, 100, "AbCd-12"⟩]
    ⟨"/app/MatrixTestApp", 4096, 100, "AbCd-12"⟩
    "new" "aBcD-12" ["old"] []
    (by decide) (by decide) (by decide) (by decide) (by decide) (by decide)
    (by decide) (by decide)

/-! ## Report Walker outcomes: `symbolicate_report` / `main`
(source lines 252-323, 383-385, 624-656) -/

/-- Oracles for one run: the file system, whether opening the output file
succeeds, and the parsed JSON of the report (`none`: `json.load` raised). -/
structure RunEnv where
  pathExists : String → Bool
  outputOpenOk : Bool
  jsonParse : Option CrashReport
  candidates : List String
  rawUuid : String → Option String

/-- Terminal state of the walk, one constructor per `return` site of
`symbolicate_report` plus the completed fall-through. -/
inductive WalkOutcome
  | missingFile
  | outputOpenFailed
  | badJson
  | locatorFailed
  | binaryMissing
  | noThreads
  | noRelevantThreads
  | completed
deriving DecidableEq

/-- State of the output-file resource at the moment the walk returns:
whether the handle was opened (and `sys.stdout` redirected to it), whether
it was closed, and whether the original `sys.stdout` was restored. -/
structure OutFileState where
  opened : Bool
  closed : Bool
  stdoutRestored : Bool
deriving DecidableEq

/-- Translation of the control flow of `symbolicate_report`: each early
`return` produces its outcome together with the output-file state at that
point.  The restore-and-close epilogue (source lines 624-628) runs only on
the fall-through path after the whole walk. -/
def walkRun (env : RunEnv) (report_path : String) (output_file : Option String) :
    WalkOutcome × OutFileState :=
  if env.pathExists report_path = false then (.missingFile, ⟨false, false, false⟩)
  else
    let opened := output_file.isSome
    if output_file.isSome ∧ env.outputOpenOk = false then
      (.outputOpenFailed, ⟨false, false, false⟩)
    else
      match env.jsonParse with
      | none => (.badJson, ⟨opened, false, false⟩)
      | some data =>
        match find_app_binary ⟨env.pathExists, env.candidates, env.rawUuid⟩
            data.binary_images with
        | (some binary_path, some load_addr) =>
          if binary_path = "" ∨ load_addr = 0 then (.locatorFailed, ⟨opened, false, false⟩)
          else if env.pathExists binary_path = false then
            (.binaryMissing, ⟨opened, false, false⟩)
          else if data.threads = [] then (.noThreads, ⟨opened, false, false⟩)
          else if threadsToShow data.threads = [] then
            (.noRelevantThreads, ⟨opened, false, false⟩)
          else (.completed,
            if output_file.isSome then ⟨true, true, true⟩ else ⟨false, false, false⟩)
        | _ => (.locatorFailed, ⟨opened, false, false⟩)

/-- `main` (source lines 630-656) calls `symbolicate_report`, ignores its
result, and never calls `sys.exit`: the interpreter exits with status 0 on
every outcome of the walk. -/
def mainExitCode (env : RunEnv) (report_path : String) (output_file : Option String) : Nat :=
  let _ := walkRun env report_path output_file
  0

/-- C8 counterexample: a run whose report file is missing halts the walk
with the missing-file outcome, yet the process exit code is 0, not
non-zero. -/
theorem c8_counterexample :
    (walkRun ⟨fun _ => false, true, none, [], fun _ => none⟩ "report.json" none).1 =
      WalkOutcome.missingFile
    ∧ mainExitCode ⟨fun _ => false, true, none, [], fun _ => none⟩ "report.json" none = 0 := by
  decide

/-- C8 (amended): every unrecoverable failure (missing report file,
unparsable JSON, binary-locator failure, empty thread list, no qualifying
threads) halts the walk at that point with the corresponding diagnostic
outcome, but the process still exits with code 0: no non-zero exit code is
ever produced. -/
theorem c8_amended (env : RunEnv) (rp : String) (out : Option String) :
    mainExitCode env rp out = 0
    ∧ (env.pathExists rp = false → (walkRun env rp out).1 = WalkOutcome.missingFile)
    ∧ (env.pathExists rp = true → ¬(out.isSome ∧ env.outputOpenOk = false) →
        env.jsonParse = none → (walkRun env rp out).1 = WalkOutcome.badJson)
    ∧ (∀ data : CrashReport, env.pathExists rp = true →
        ¬(out.isSome ∧ env.outputOpenOk = false) → env.jsonParse = some data →
        find_app_binary ⟨env.pathExists, env.candidates, env.rawUuid⟩
          data.binary_images = (none, none) →
        (walkRun env rp out).1 = WalkOutcome.locatorFailed)
    ∧ (∀ (data : CrashReport) (bp : String) (la : Nat), env.pathExists rp = true →
        ¬(out.isSome ∧ env.outputOpenOk = false) → env.jsonParse = some data →
        find_app_binary ⟨env.pathExists, env.candidates, env.rawUuid⟩
          data.binary_images = (some bp, some la) →
        ¬(bp = "" ∨ la = 0) → env.pathExists bp = true → data.threads = [] →
        (walkRun env rp out).1 = WalkOutcome.noThreads)
    ∧ (∀ (data : CrashReport) (bp : String) (la : Nat), env.pathExists rp = true →
        ¬(out.isSome ∧ env.outputOpenOk = false) → env.jsonParse = some data →
        find_app_binary ⟨env.pathExists, env.candidates, env.rawUuid⟩
          data.binary_images = (some bp, some la) →
        ¬(bp = "" ∨ la = 0) → env.pathExists bp = true → data.threads ≠ [] →
        threadsToShow data.threads = [] →
        (walkRun env rp out).1 = WalkOutcome.noRelevantThreads) := by
  refine ⟨rfl, ?_, ?_, ?_, ?_, ?_⟩
  · intro hp
    simp [walkRun, hp]
  · intro hp hout hj
    simp [walkRun, hp, hj, if_neg hout]
  · intro data hp hout hj hfind
    simp [walkRun, hp, hj, if_neg hout, hfind]
  · intro data bp la hp hout hj hfind hbp hbpe hth
    simp [walkRun, hp, hj, if_neg hout, hfind, if_neg hbp, hbpe, hth]
  · intro data bp la hp hout hj hfind hbp hbpe hth hshow
    simp [walkRun, hp, hj, if_neg hout, hfind, if_neg hbp, hbpe, hth, hshow]

/-- Witness for `c8_amended` at a concrete failing run. -/
theorem c8_amended_witness :
    mainExitCode ⟨fun _ => true, true, none, [], fun _ => none⟩ "r.json" none = 0
    ∧ (walkRun ⟨fun _ => true, true, none, [], fun _ => none⟩ "r.json" none).1 =
      WalkOutcome.badJson := by
  refine ⟨(c8_amended ⟨fun _ => true, true, none, [], fun _ => none⟩ "r.json" none).1, ?_⟩
  exact (c8_amended ⟨fun _ => true, true, none, [], fun _ => none⟩ "r.json" none).2.2.1
    (by decide) (by decide) (by decide)

/-- C9 evidence: with an output file specified and unreadable JSON, the walk
returns with the output handle opened (and `sys.stdout` still redirected to
it) but never closed and the original `sys.stdout` never restored; the
restore-and-close epilogue runs only on the completed path. -/
theorem c9_output_leak :
    walkRun ⟨fun _ => true, true, none, [], fun _ => none⟩ "r.json" (some "out.txt") =
      (WalkOutcome.badJson, ⟨true, false, false⟩)
    ∧ walkRun
        ⟨fun _ => true, true,
          some ⟨[⟨"/X/MatrixTestApp", 4096, 100, "u"⟩],
            [⟨some 0, some "main", true, []⟩]⟩, [], fun _ => none⟩
        "r.json" (some "out.txt") =
      (WalkOutcome.completed, ⟨true, true, true⟩) := by
  decide

/-! ## Symbol-output parsing: `parse_symbol_output` (source lines 195-215)

The source applies `re.search` with the pattern
`\(([^)]+\.(?:m|mm|c|cpp|swift)):(\d+)\)` and returns `(group(1), group(2))`
of the first match, or `(None, None)`.

The matcher below reproduces that search exactly.  Two observations justify
the translation of the backtracking order:
* any successful match starting at a `(` must end with digits followed by
  `)`, and `[^)]+` cannot cross a `)`, so a match consumes the whole
  maximal paren-free run after the `(` and its closing `)`; since the
  extension, the `:` and the digits contain no `.`, at most one position of
  the `.` inside a given run can complete a match, making the regex's
  longest-first ordering of `[^)]+` equivalent to the shortest-first
  recursion used here;
* each alternative extension must be followed by `:`, so at most one of
  `m|mm|c|cpp|swift` can match at a given position and the alternation
  order is likewise immaterial. -/

/-- The alternation `m|mm|c|cpp|swift` of the pattern, in order. -/
def extsL : List (List Char) := [['m'], ['m', 'm'], ['c'], ['c', 'p', 'p'],
  ['s', 'w', 'i', 'f', 't']]

/-- Try one extension alternative: `e` followed by `:`, one or more digits,
and the closing `)`. -/
def tryExt (e : List Char) (cs : List Char) : Option (List Char × List Char) :=
  if listStartsWith cs (e ++ [':']) then
    let after := cs.drop (e.length + 1)
    let dg := after.takeWhile Char.isDigit
    if dg ≠ [] ∧ (after.drop dg.length).head? = some ')' then some (e, dg) else none
  else none

/-- The tail of the pattern after the `.`: the extension alternation, `:`,
the digit group and `)`. -/
def tryTail (cs : List Char) : Option (List Char × List Char) :=
  match tryExt ['m'] cs with
  | some r => some r
  | none =>
    match tryExt ['m', 'm'] cs with
    | some r => some r
    | none =>
      match tryExt ['c'] cs with
      | some r => some r
      | none =>
        match tryExt ['c', 'p', 'p'] cs with
        | some r => some r
        | none => tryExt ['s', 'w', 'i', 'f', 't'] cs

/-- Match the pattern body after an opening `(`: accumulate `[^)]+` into
`acc` (reversed) and at each `.` preceded by at least one character try the
pattern tail; on success the first capture group is everything from the `(`
to the extension inclusive. -/
def matchGroup (acc : List Char) : List Char → Option (List Char × List Char)
  | [] => none
  | c :: rest =>
    if c = ')' then none
    else if c = '.' ∧ acc ≠ [] then
      match tryTail rest with
      | some (e, d) => some (acc.reverse ++ ('.' :: e), d)
      | none => matchGroup (c :: acc) rest
    else matchGroup (c :: acc) rest

/-- `re.search`: try the pattern at every position, leftmost match wins; a
match can only start at a `(`. -/
def searchMatch : List Char → Option (List Char × List Char)
  | [] => none
  | c :: rest =>
    if c = '(' then
      match matchGroup [] rest with
      | some r => some r
      | none => searchMatch rest
    else searchMatch rest

/-- Translation of `parse_symbol_output`: file name (capture group 1,
extension included) and line number (capture group 2) of the first match,
or `(None, None)` when the pattern does not match. -/
def parse_symbol_output (s : String) : Option String × Option String :=
  match searchMatch s.data with
  | some (f, d) => (some (String.mk f), some (String.mk d))
  | none => (none, none)

theorem takeWhile_append_of_all {p : Char → Bool} (xs ys : List Char)
    (h : ∀ c ∈ xs, p c = true) :
    (xs ++ ys).takeWhile p = xs ++ ys.takeWhile p := by
  induction xs with
  | nil => simp
  | cons x xs ih =>
    rw [List.cons_append, List.takeWhile_cons_of_pos (h x (by simp)), ih]
    · rfl
    · intro c hc; exact h c (by simp [hc])

theorem dropWhile_append_of_all {p : Char → Bool} (xs ys : List Char)
    (h : ∀ c ∈ xs, p c = true) :
    (xs ++ ys).dropWhile p = ys.dropWhile p := by
  induction xs with
  | nil => simp
  | cons x xs ih =>
    rw [List.cons_append, List.dropWhile_cons_of_pos (h x (by simp)), ih]
    intro c hc; exact h c (by simp [hc])

theorem listStartsWith_decompose {s p : List Char} (h : listStartsWith s p = true) :
    s = p ++ s.drop p.length := by
  obtain ⟨r, rfl⟩ := (listStartsWith_iff p s).mp h
  rw [List.drop_left]

theorem tryExt_sound {e cs : List Char} {e' dg : List Char}
    (h : tryExt e cs = some (e', dg)) :
    e' = e ∧ dg ≠ [] ∧ (∀ c ∈ dg, Char.isDigit c = true) ∧
      ∃ rest, cs = e ++ (':' :: (dg ++ (')' :: rest))) := by
  rw [tryExt] at h
  by_cases hs : listStartsWith cs (e ++ [':']) = true
  · rw [if_pos hs] at h
    set after := cs.drop (e.length + 1) with hafter
    set dg0 := after.takeWhile Char.isDigit with hdg0
    by_cases hc : dg0 ≠ [] ∧ (after.drop dg0.length).head? = some ')'
    · rw [if_pos hc] at h
      injection h with h1
      injection h1 with he hdg
      subst he; subst hdg
      have hdecomp : cs = (e ++ [':']) ++ after := by
        have := listStartsWith_decompose hs
        rw [this]
        congr 1
        rw [List.length_append]
        rfl
      have hdigits : ∀ c ∈ dg0, Char.isDigit c = true := by
        intro c hcmem
        exact List.mem_takeWhile_imp (hdg0 ▸ hcmem)
      have hsplit : after = dg0 ++ after.dropWhile Char.isDigit := by
        rw [hdg0, List.takeWhile_append_dropWhile]
      have hdrop : after.drop dg0.length = after.dropWhile Char.isDigit := by
        conv_lhs => rw [hsplit]
        rw [List.drop_left]
      obtain ⟨hne, hhead⟩ := hc
      rw [hdrop] at hhead
      obtain ⟨rest, hrest⟩ : ∃ rest, after.dropWhile Char.isDigit = ')' :: rest := by
        cases hd : after.dropWhile Char.isDigit with
        | nil => rw [hd] at hhead; cases hhead
        | cons a as =>
          rw [hd] at hhead
          injection hhead with ha
          exact ⟨as, by rw [ha]⟩
      refine ⟨rfl, hne, hdigits, rest, ?_⟩
      rw [hdecomp]
      conv_lhs => rw [hsplit, hrest]
      simp
    · rw [if_neg hc] at h; cases h
  · rw [if_neg hs] at h; cases h

theorem tryTail_sound {cs : List Char} {e dg : List Char}
    (h : tryTail cs = some (e, dg)) :
    e ∈ extsL ∧ dg ≠ [] ∧ (∀ c ∈ dg, Char.isDigit c = true) ∧
      ∃ rest, cs = e ++ (':' :: (dg ++ (')' :: rest))) := by
  rw [tryTail] at h
  cases h1 : tryExt ['m'] cs with
  | some r =>
    rw [h1] at h; injection h with h'; subst h'
    obtain ⟨he, h2, h3, h4⟩ := tryExt_sound h1
    exact ⟨by simp [he, extsL], h2, h3, by rw [he]; exact h4⟩
  | none =>
    rw [h1] at h
    cases h2 : tryExt ['m', 'm'] cs with
    | some r =>
      rw [h2] at h; injection h with h'; subst h'
      obtain ⟨he, ha, hb, hcc⟩ := tryExt_sound h2
      exact ⟨by simp [he, extsL], ha, hb, by rw [he]; exact hcc⟩
    | none =>
      rw [h2] at h
      cases h3 : tryExt ['c'] cs with
      | some r =>
        rw [h3] at h; injection h with h'; subst h'
        obtain ⟨he, ha, hb, hcc⟩ := tryExt_sound h3
        exact ⟨by simp [he, extsL], ha, hb, by rw [he]; exact hcc⟩
      | none =>
        rw [h3] at h
        cases h4 : tryExt ['c', 'p', 'p'] cs with
        | some r =>
          rw [h4] at h; injection h with h'; subst h'
          obtain ⟨he, ha, hb, hcc⟩ := tryExt_sound h4
          exact ⟨by simp [he, extsL], ha, hb, by rw [he]; exact hcc⟩
        | none =>
          rw [h4] at h
          obtain ⟨he, ha, hb, hcc⟩ := tryExt_sound h
          exact ⟨by simp [he, extsL], ha, hb, by rw [he]; exact hcc⟩

/-- `[^)]`: any character other than the closing parenthesis. -/
def notParen (c : Char) : Bool := !(c == ')')

theorem digit_notParen {c : Char} (h : Char.isDigit c = true) : notParen c = true := by
  by_cases hb : c = ')'
  · rw [hb] at h; exact absurd h (by decide)
  · simp [notParen, hb]

theorem ne_paren_notParen {c : Char} (h : c ≠ ')') : notParen c = true := by
  simp [notParen, h]

theorem exts_notParen : ∀ e ∈ extsL, ∀ c ∈ e, notParen c = true := by decide

theorem exts_no_dot : ∀ e ∈ extsL, ('.' : Char) ∉ e := by decide

theorem takeWhile_run (g e d suf : List Char)
    (hg : ∀ c ∈ g, notParen c = true)
    (he : ∀ c ∈ e, notParen c = true)
    (hd : ∀ c ∈ d, notParen c = true) :
    (g ++ ('.' :: (e ++ (':' :: (d ++ (')' :: suf)))))).takeWhile notParen
      = g ++ ('.' :: (e ++ (':' :: d))) := by
  rw [takeWhile_append_of_all g _ hg,
    List.takeWhile_cons_of_pos (show notParen '.' = true by decide),
    takeWhile_append_of_all e _ he,
    List.takeWhile_cons_of_pos (show notParen ':' = true by decide),
    takeWhile_append_of_all d _ hd,
    List.takeWhile_cons_of_neg (show ¬notParen ')' = true by decide)]
  simp

theorem takeWhile_run2 (e d suf : List Char)
    (he : ∀ c ∈ e, notParen c = true)
    (hd : ∀ c ∈ d, notParen c = true) :
    (e ++ (':' :: (d ++ (')' :: suf)))).takeWhile notParen = e ++ (':' :: d) := by
  rw [takeWhile_append_of_all e _ he,
    List.takeWhile_cons_of_pos (show notParen ':' = true by decide),
    takeWhile_append_of_all d _ hd,
    List.takeWhile_cons_of_neg (show ¬notParen ')' = true by decide)]
  simp

/-- Inside one paren-free run of the pattern family, no dot other than the
final one can complete a match: a successful tail match there would force a
`.` inside the matched extension, which no extension contains. -/
theorem tryTail_inner_none (g e d suf : List Char)
    (hg : ∀ c ∈ g, notParen c = true)
    (he : e ∈ extsL) (_hdne : d ≠ []) (hdig : ∀ c ∈ d, Char.isDigit c = true) :
    tryTail (g ++ ('.' :: (e ++ (':' :: (d ++ (')' :: suf)))))) = none := by
  cases htt : tryTail (g ++ ('.' :: (e ++ (':' :: (d ++ (')' :: suf)))))) with
  | none => rfl
  | some r =>
    exfalso
    obtain ⟨e', dg⟩ := r
    obtain ⟨he', hdgne, hdgdig, rest, hdecomp⟩ := tryTail_sound htt
    have heNP : ∀ c ∈ e, notParen c = true := exts_notParen e he
    have hdNP : ∀ c ∈ d, notParen c = true := fun c hc => digit_notParen (hdig c hc)
    have he'NP : ∀ c ∈ e', notParen c = true := exts_notParen e' he'
    have hdgNP : ∀ c ∈ dg, notParen c = true := fun c hc => digit_notParen (hdgdig c hc)
    have hT : g ++ ('.' :: (e ++ (':' :: d))) = e' ++ (':' :: dg) := by
      have hcongr := congrArg (List.takeWhile notParen) hdecomp
      rwa [takeWhile_run g e d suf hg heNP hdNP, takeWhile_run2 e' dg rest he'NP hdgNP]
        at hcongr
    have hrev := congrArg List.reverse hT
    simp only [List.reverse_append, List.reverse_cons, List.append_assoc,
      List.singleton_append, List.nil_append] at hrev
    have hdrevdig : ∀ c ∈ d.reverse, Char.isDigit c = true :=
      fun c hc => hdig c (List.mem_reverse.mp hc)
    have hdgrevdig : ∀ c ∈ dg.reverse, Char.isDigit c = true :=
      fun c hc => hdgdig c (List.mem_reverse.mp hc)
    have hDrop := congrArg (List.dropWhile Char.isDigit) hrev
    rw [dropWhile_append_of_all d.reverse _ hdrevdig, List.cons_append,
      List.dropWhile_cons_of_neg (show ¬Char.isDigit ':' = true by decide),
      dropWhile_append_of_all dg.reverse _ hdgrevdig,
      List.dropWhile_cons_of_neg (show ¬Char.isDigit ':' = true by decide)] at hDrop
    injection hDrop with _ htails
    have hdot : ('.' : Char) ∈ e'.reverse := by
      rw [← htails]
      simp
    exact exts_no_dot e' he' (List.mem_reverse.mp hdot)

/-- At the dot of the pattern family the tail matches, yielding the
extension and the digit group. -/
theorem tryTail_at_dot (e : List Char) (he : e ∈ extsL) (d suf : List Char)
    (hdne : d ≠ []) (hdig : ∀ c ∈ d, Char.isDigit c = true) :
    tryTail (e ++ (':' :: (d ++ (')' :: suf)))) = some (e, d) := by
  have htake : (d ++ (')' :: suf)).takeWhile Char.isDigit = d := by
    rw [takeWhile_append_of_all d _ hdig,
      List.takeWhile_cons_of_neg (show ¬Char.isDigit ')' = true by decide)]
    simp
  have hdrop : (d ++ (')' :: suf)).drop d.length = ')' :: suf := List.drop_left d _
  have he5 : e = ['m'] ∨ e = ['m', 'm'] ∨ e = ['c'] ∨ e = ['c', 'p', 'p'] ∨
      e = ['s', 'w', 'i', 'f', 't'] := by
    simpa [extsL] using he
  rcases he5 with rfl | rfl | rfl | rfl | rfl <;>
    simp [tryTail, tryExt, htake, hdrop, hdne, List.drop]

/-- On the pattern family, `matchGroup` returns the capture groups of the
match at the final dot: inner dots cannot complete a match. -/
theorem matchGroup_family (g : List Char) : ∀ (acc e d suf : List Char),
    (∀ c ∈ g, c ≠ ')') → e ∈ extsL → d ≠ [] →
    (∀ c ∈ d, Char.isDigit c = true) → (acc = [] → g ≠ []) →
    matchGroup acc (g ++ ('.' :: (e ++ (':' :: (d ++ (')' :: suf)))))) =
      some ((acc.reverse ++ g) ++ ('.' :: e), d) := by
  induction g with
  | nil =>
    intro acc e d suf hg he hdne hdig hne
    have hacc : acc ≠ [] := fun hc => (hne hc) rfl
    rw [List.nil_append, matchGroup, if_neg (show ¬('.' : Char) = ')' by decide),
      if_pos ⟨rfl, hacc⟩]
    simp only [tryTail_at_dot e he d suf hdne hdig]
    simp
  | cons ch g' ih =>
    intro acc e d suf hg he hdne hdig hne
    have hchne : ch ≠ ')' := hg ch (by simp)
    have hg' : ∀ c ∈ g', c ≠ ')' := fun c hc => hg c (by simp [hc])
    have hg'NP : ∀ c ∈ g', notParen c = true := fun c hc => ne_paren_notParen (hg' c hc)
    rw [List.cons_append, matchGroup, if_neg hchne]
    by_cases hdot : ch = '.' ∧ acc ≠ []
    · rw [if_pos hdot]
      simp only [tryTail_inner_none g' e d suf hg'NP he hdne hdig]
      rw [ih (ch :: acc) e d suf hg' he hdne hdig (by intro hc; cases hc)]
      simp
    · rw [if_neg hdot]
      rw [ih (ch :: acc) e d suf hg' he hdne hdig (by intro hc; cases hc)]
      simp

/-- `re.search` skips every position in front of a prefix without `(`. -/
theorem searchMatch_skip (pre : List Char) (cs : List Char)
    (hpre : ∀ c ∈ pre, c ≠ '(') :
    searchMatch (pre ++ cs) = searchMatch cs := by
  induction pre with
  | nil => rfl
  | cons c pre ih =>
    rw [List.cons_append, searchMatch, if_neg (hpre c (by simp))]
    exact ih (fun c hc => hpre c (by simp [hc]))

theorem searchMatch_at_paren (body : List Char) (r : List Char × List Char)
    (h : matchGroup [] body = some r) :
    searchMatch ('(' :: body) = some r := by
  rw [searchMatch, if_pos rfl]
  simp only [h]

/-- Whatever `matchGroup` returns comes from an actual fragment of the
pattern shape present in the input. -/
theorem matchGroup_sound : ∀ (cs : List Char) (acc F D : List Char),
    matchGroup acc cs = some (F, D) →
    ∃ g e d rest, cs = g ++ ('.' :: (e ++ (':' :: (d ++ (')' :: rest))))) ∧
      (∀ c ∈ g, c ≠ ')') ∧ e ∈ extsL ∧ d ≠ [] ∧ (∀ c ∈ d, Char.isDigit c = true) ∧
      F = (acc.reverse ++ g) ++ ('.' :: e) ∧ D = d ∧ acc.reverse ++ g ≠ [] := by
  intro cs
  induction cs with
  | nil => intro acc F D h; cases h
  | cons c rest ih =>
    intro acc F D h
    rw [matchGroup] at h
    by_cases hp : c = ')'
    · rw [if_pos hp] at h; cases h
    · rw [if_neg hp] at h
      by_cases hdot : c = '.' ∧ acc ≠ []
      · rw [if_pos hdot] at h
        cases htt : tryTail rest with
        | some r =>
          obtain ⟨e, d⟩ := r
          simp only [htt] at h
          injection h with h'
          rw [Prod.mk.injEq] at h'
          obtain ⟨hF, hD⟩ := h'
          obtain ⟨he, hdne, hdig, rest', hrest⟩ := tryTail_sound htt
          refine ⟨[], e, d, rest', ?_, by simp, he, hdne, hdig, ?_, hD.symm, ?_⟩
          · rw [List.nil_append, hdot.1, hrest]
          · rw [← hF]; simp
          · simpa using hdot.2
        | none =>
          simp only [htt] at h
          obtain ⟨g', e, d, rest', hcs, hg', he, hdne, hdig, hF, hD, hne⟩ := ih (c :: acc) F D h
          refine ⟨c :: g', e, d, rest', ?_, ?_, he, hdne, hdig, ?_, hD, ?_⟩
          · rw [List.cons_append, hcs]
          · intro x hx
            rcases List.mem_cons.mp hx with rfl | hx
            · exact hp
            · exact hg' x hx
          · rw [hF]; simp
          · simp
      · rw [if_neg hdot] at h
        obtain ⟨g', e, d, rest', hcs, hg', he, hdne, hdig, hF, hD, hne⟩ := ih (c :: acc) F D h
        refine ⟨c :: g', e, d, rest', ?_, ?_, he, hdne, hdig, ?_, hD, ?_⟩
        · rw [List.cons_append, hcs]
        · intro x hx
          rcases List.mem_cons.mp hx with rfl | hx
          · exact hp
          · exact hg' x hx
        · rw [hF]; simp
        · simp

/-- Whatever `searchMatch` returns comes from an actual fragment of the
pattern shape present in the input. -/
theorem searchMatch_sound : ∀ (cs F D : List Char),
    searchMatch cs = some (F, D) →
    ∃ pre g e d rest,
      cs = pre ++ ('(' :: (g ++ ('.' :: (e ++ (':' :: (d ++ (')' :: rest))))))) ∧
      g ≠ [] ∧ (∀ c ∈ g, c ≠ ')') ∧ e ∈ extsL ∧ d ≠ [] ∧
      (∀ c ∈ d, Char.isDigit c = true) ∧ F = g ++ ('.' :: e) ∧ D = d := by
  intro cs
  induction cs with
  | nil => intro F D h; cases h
  | cons c rest ih =>
    intro F D h
    rw [searchMatch] at h
    by_cases hp : c = '('
    · rw [if_pos hp] at h
      cases hm : matchGroup [] rest with
      | some r =>
        simp only [hm] at h
        injection h with h'
        subst h'
        obtain ⟨g, e, d, rest', hcs, hg, he, hdne, hdig, hF, hD, hne⟩ :=
          matchGroup_sound rest [] F D hm
        refine ⟨[], g, e, d, rest', ?_, ?_, hg, he, hdne, hdig, ?_, hD⟩
        · rw [List.nil_append, hp, hcs]
        · simpa using hne
        · rw [hF]; simp
      | none =>
        simp only [hm] at h
        obtain ⟨pre, g, e, d, rest', hcs, hg, hgp, he, hdne, hdig, hF, hD⟩ := ih F D h
        exact ⟨c :: pre, g, e, d, rest', by rw [List.cons_append, hcs], hg, hgp, he,
          hdne, hdig, hF, hD⟩
    · rw [if_neg hp] at h
      obtain ⟨pre, g, e, d, rest', hcs, hg, hgp, he, hdne, hdig, hF, hD⟩ := ih F D h
      exact ⟨c :: pre, g, e, d, rest', by rw [List.cons_append, hcs], hg, hgp, he,
        hdne, hdig, hF, hD⟩

/-- The search cannot miss: if the pattern body matches at some `(`, then
`searchMatch` succeeds, and the match it returns starts at that `(` or at an
earlier position. -/
theorem searchMatch_finds (pre : List Char) : ∀ (body : List Char)
    (r0 : List Char × List Char), matchGroup [] body = some r0 →
    ∃ pre2 body2 r2, pre ++ ('(' :: body) = pre2 ++ ('(' :: body2) ∧
      matchGroup [] body2 = some r2 ∧
      searchMatch (pre ++ ('(' :: body)) = some r2 ∧ pre2.length ≤ pre.length := by
  induction pre with
  | nil =>
    intro body r0 hb
    exact ⟨[], body, r0, rfl, hb, searchMatch_at_paren body r0 hb, Nat.le_refl 0⟩
  | cons c pre2 ih =>
    intro body r0 hb
    rw [List.cons_append]
    by_cases hc : c = '('
    · cases hm : matchGroup [] (pre2 ++ ('(' :: body)) with
      | some r1 =>
        refine ⟨[], pre2 ++ ('(' :: body), r1, by rw [hc]; rfl, hm, ?_, by simp⟩
        rw [searchMatch, if_pos hc]
        simp only [hm]
      | none =>
        obtain ⟨pre3, body2, r2, heq, hm2, hs2, hlen⟩ := ih body r0 hb
        refine ⟨c :: pre3, body2, r2, by rw [List.cons_append, heq], hm2, ?_, ?_⟩
        · rw [searchMatch, if_pos hc]
          simp only [hm]
          exact hs2
        · simpa using Nat.succ_le_succ hlen
    · obtain ⟨pre3, body2, r2, heq, hm2, hs2, hlen⟩ := ih body r0 hb
      refine ⟨c :: pre3, body2, r2, by rw [List.cons_append, heq], hm2, ?_, ?_⟩
      · rw [searchMatch, if_neg hc]
        exact hs2
      · simpa using Nat.succ_le_succ hlen

/-- Any character other than the dot. -/
def notDot (c : Char) : Bool := !(c == '.')

theorem exts_notDot : ∀ e ∈ extsL, ∀ c ∈ e, notDot c = true := by decide

/-- A paren-free run decomposes into file, extension and digit group in at
most one way: the digit group is the digit run before the `)`, the extension
is the dot-free segment before the `:`, and the file is the remainder. -/
theorem fragment_groups_unique (f e d suf A e2 d2 suf2 : List Char)
    (hf : ∀ c ∈ f, c ≠ ')') (hA : ∀ c ∈ A, c ≠ ')')
    (he : e ∈ extsL) (he2 : e2 ∈ extsL)
    (hd : ∀ c ∈ d, Char.isDigit c = true) (hd2 : ∀ c ∈ d2, Char.isDigit c = true)
    (heq : f ++ ('.' :: (e ++ (':' :: (d ++ (')' :: suf))))) =
      A ++ ('.' :: (e2 ++ (':' :: (d2 ++ (')' :: suf2)))))) :
    f = A ∧ e = e2 ∧ d = d2 := by
  have hT := congrArg (List.takeWhile notParen) heq
  rw [takeWhile_run f e d suf (fun c hc => ne_paren_notParen (hf c hc))
      (exts_notParen e he) (fun c hc => digit_notParen (hd c hc)),
    takeWhile_run A e2 d2 suf2 (fun c hc => ne_paren_notParen (hA c hc))
      (exts_notParen e2 he2) (fun c hc => digit_notParen (hd2 c hc))] at hT
  have hrev := congrArg List.reverse hT
  simp only [List.reverse_append, List.reverse_cons, List.append_assoc,
    List.singleton_append, List.nil_append, List.cons_append] at hrev
  have hdrev : ∀ c ∈ d.reverse, Char.isDigit c = true :=
    fun c hc => hd c (List.mem_reverse.mp hc)
  have hd2rev : ∀ c ∈ d2.reverse, Char.isDigit c = true :=
    fun c hc => hd2 c (List.mem_reverse.mp hc)
  have hTake := congrArg (List.takeWhile Char.isDigit) hrev
  rw [takeWhile_append_of_all d.reverse _ hdrev,
    List.takeWhile_cons_of_neg (show ¬Char.isDigit ':' = true by decide),
    takeWhile_append_of_all d2.reverse _ hd2rev,
    List.takeWhile_cons_of_neg (show ¬Char.isDigit ':' = true by decide)] at hTake
  have hdd : d = d2 := by
    have := congrArg List.reverse hTake
    simpa using this
  have hDrop := congrArg (List.dropWhile Char.isDigit) hrev
  rw [dropWhile_append_of_all d.reverse _ hdrev,
    List.dropWhile_cons_of_neg (show ¬Char.isDigit ':' = true by decide),
    dropWhile_append_of_all d2.reverse _ hd2rev,
    List.dropWhile_cons_of_neg (show ¬Char.isDigit ':' = true by decide)] at hDrop
  injection hDrop with _ htails
  have herev : ∀ c ∈ e.reverse, notDot c = true :=
    fun c hc => exts_notDot e he c (List.mem_reverse.mp hc)
  have he2rev : ∀ c ∈ e2.reverse, notDot c = true :=
    fun c hc => exts_notDot e2 he2 c (List.mem_reverse.mp hc)
  have hT2 := congrArg (List.takeWhile notDot) htails
  rw [takeWhile_append_of_all e.reverse _ herev,
    List.takeWhile_cons_of_neg (show ¬notDot '.' = true by decide),
    takeWhile_append_of_all e2.reverse _ he2rev,
    List.takeWhile_cons_of_neg (show ¬notDot '.' = true by decide)] at hT2
  have hee : e = e2 := by
    have := congrArg List.reverse hT2
    simpa using this
  have hD2 := congrArg (List.dropWhile notDot) htails
  rw [dropWhile_append_of_all e.reverse _ herev,
    List.dropWhile_cons_of_neg (show ¬notDot '.' = true by decide),
    dropWhile_append_of_all e2.reverse _ he2rev,
    List.dropWhile_cons_of_neg (show ¬notDot '.' = true by decide)] at hD2
  injection hD2 with _ hfrev
  have hfA : f = A := by
    have := congrArg List.reverse hfrev
    simpa using this
  exact ⟨hfA, hee, hdd⟩

/-- C3 counterexample: the input carries the parenthesized suffix
`(b.c:2)` of the required form, but the parser returns the file and line of
the *first* such fragment `(a.m:1)`, not those of the suffix. -/
theorem c3_counterexample :
    parse_symbol_output ("(a.m:1) " ++ "(b.c:2)") = (some "a.m", some "1")
    ∧ parse_symbol_output ("(a.m:1) " ++ "(b.c:2)") ≠ (some "b.c", some "2") := by
  decide

/-- C3 (amended): `parse_symbol_output` returns the file (extension
included) and line of the first — leftmost, not necessarily the suffix —
parenthesized fragment `(<file>.<ext>:<line>)` with `<ext>` in
`{m, mm, c, cpp, swift}`, `<line>` a non-empty digit string and `<file>`
non-empty without `)`.  Part 1: when no `(` precedes the fragment the result
is exactly its file and line.  Part 2 (soundness): any returned file and
line come from such a fragment present in the input, so an input lacking any
fragment yields `(none, none)`.  Part 3 (leftmost, arbitrary prefix): on any
input containing such a fragment — regardless of earlier `(` characters,
as in `sym (in App) (File.mm:42)` — the parser succeeds, what it returns is
itself a fragment of the input starting at the same position or earlier,
and if it starts at the same position it is exactly the given fragment. -/
theorem c3_amended :
    (∀ pre f e d suf : List Char,
      (∀ c ∈ pre, c ≠ '(') → (∀ c ∈ f, c ≠ ')') → f ≠ [] → e ∈ extsL → d ≠ [] →
      (∀ c ∈ d, Char.isDigit c = true) →
      parse_symbol_output
        (String.mk (pre ++ ('(' :: (f ++ ('.' :: (e ++ (':' :: (d ++ (')' :: suf))))))))) =
        (some (String.mk (f ++ ('.' :: e))), some (String.mk d)))
    ∧ (∀ (s F L : String), parse_symbol_output s = (some F, some L) →
      ∃ pre A e d suf,
        s.data = pre ++ ('(' :: (A ++ ('.' :: (e ++ (':' :: (d ++ (')' :: suf))))))) ∧
        A ≠ [] ∧ (∀ c ∈ A, c ≠ ')') ∧ e ∈ extsL ∧ d ≠ [] ∧
        (∀ c ∈ d, Char.isDigit c = true) ∧
        F = String.mk (A ++ ('.' :: e)) ∧ L = String.mk d)
    ∧ (∀ (s : String) (pre f e d suf : List Char),
      s.data = pre ++ ('(' :: (f ++ ('.' :: (e ++ (':' :: (d ++ (')' :: suf))))))) →
      (∀ c ∈ f, c ≠ ')') → f ≠ [] → e ∈ extsL → d ≠ [] →
      (∀ c ∈ d, Char.isDigit c = true) →
      ∃ pre2 A e2 d2 suf2 : List Char,
        parse_symbol_output s =
          (some (String.mk (A ++ ('.' :: e2))), some (String.mk d2)) ∧
        s.data = pre2 ++ ('(' :: (A ++ ('.' :: (e2 ++ (':' :: (d2 ++ (')' :: suf2))))))) ∧
        A ≠ [] ∧ (∀ c ∈ A, c ≠ ')') ∧ e2 ∈ extsL ∧ d2 ≠ [] ∧
        (∀ c ∈ d2, Char.isDigit c = true) ∧
        pre2.length ≤ pre.length ∧
        (pre2.length = pre.length → A = f ∧ e2 = e ∧ d2 = d)) := by
  refine ⟨?_, ?_, ?_⟩
  · intro pre f e d suf hpre hf hfne he hdne hdig
    have hbody : matchGroup [] (f ++ ('.' :: (e ++ (':' :: (d ++ (')' :: suf)))))) =
        some (f ++ ('.' :: e), d) := by
      rw [matchGroup_family f [] e d suf hf he hdne hdig (fun _ => hfne)]
      simp
    have hsearch : searchMatch
        (pre ++ ('(' :: (f ++ ('.' :: (e ++ (':' :: (d ++ (')' :: suf)))))))) =
        some (f ++ ('.' :: e), d) := by
      rw [searchMatch_skip pre _ hpre]
      exact searchMatch_at_paren _ _ hbody
    rw [parse_symbol_output]
    simp only [hsearch]
  · intro s F L h
    rw [parse_symbol_output] at h
    cases hsm : searchMatch s.data with
    | none =>
      simp only [hsm] at h
      rw [Prod.mk.injEq] at h
      exact absurd h.1 (by simp)
    | some r =>
      obtain ⟨F2, D2⟩ := r
      simp only [hsm] at h
      rw [Prod.mk.injEq] at h
      obtain ⟨hF, hL⟩ := h
      injection hF with hF2
      injection hL with hL2
      obtain ⟨pre, g, e, d, rest, hcs, hg, hgp, he, hdne, hdig, hFg, hD⟩ :=
        searchMatch_sound s.data F2 D2 hsm
      refine ⟨pre, g, e, d, rest, hcs, hg, hgp, he, hdne, hdig, ?_, ?_⟩
      · rw [← hF2, hFg]
      · rw [← hL2, hD]
  · intro s pre f e d suf hsdata hf hfne he hdne hdig
    have hbody : matchGroup [] (f ++ ('.' :: (e ++ (':' :: (d ++ (')' :: suf)))))) =
        some (f ++ ('.' :: e), d) := by
      rw [matchGroup_family f [] e d suf hf he hdne hdig (fun _ => hfne)]
      simp
    obtain ⟨pre2, body2, r2, heq, hm2, hs2, hlen⟩ :=
      searchMatch_finds pre _ _ hbody
    obtain ⟨F2, D2⟩ := r2
    obtain ⟨A, e2, d2, rest2, hbody2, hA, he2, hd2ne, hd2dig, hF2, hD2, hAne⟩ :=
      matchGroup_sound body2 [] F2 D2 hm2
    have hAne2 : A ≠ [] := by simpa using hAne
    have hF2A : F2 = A ++ ('.' :: e2) := by rw [hF2]; simp
    refine ⟨pre2, A, e2, d2, rest2, ?_, ?_, hAne2, hA, he2, hd2ne, hd2dig, hlen, ?_⟩
    · rw [parse_symbol_output, hsdata]
      simp only [hs2]
      rw [hF2A, hD2]
    · rw [hsdata, heq, hbody2]
    · intro hplen
      obtain ⟨hpre_eq, htail⟩ := List.append_inj heq hplen.symm
      injection htail with _ hbody_eq
      have hfrag : f ++ ('.' :: (e ++ (':' :: (d ++ (')' :: suf))))) =
          A ++ ('.' :: (e2 ++ (':' :: (d2 ++ (')' :: rest2))))) := by
        rw [hbody_eq, hbody2]
      obtain ⟨h1, h2, h3⟩ := fragment_groups_unique f e d suf A e2 d2 rest2
        hf hA he he2 hdig hd2dig hfrag
      exact ⟨h1.symm, h2.symm, h3.symm⟩

/-- Witness for `c3_amended` at a concrete symbolizer output line of the
canonical format, whose prefix contains an earlier `(`. -/
theorem c3_amended_witness :
    (∃ pre2 A e2 d2 suf2 : List Char,
      parse_symbol_output (String.mk ("sym (in App) ".data ++ ('(' :: ("Foo".data ++
          ('.' :: ("mm".data ++ (':' :: ("42".data ++ (')' :: []))))))))) =
        (some (String.mk (A ++ ('.' :: e2))), some (String.mk d2)) ∧
      (String.mk ("sym (in App) ".data ++ ('(' :: ("Foo".data ++
          ('.' :: ("mm".data ++ (':' :: ("42".data ++ (')' :: []))))))))).data =
        pre2 ++ ('(' :: (A ++ ('.' :: (e2 ++ (':' :: (d2 ++ (')' :: suf2))))))) ∧
      A ≠ [] ∧ (∀ c ∈ A, c ≠ ')') ∧ e2 ∈ extsL ∧ d2 ≠ [] ∧
      (∀ c ∈ d2, Char.isDigit c = true) ∧
      pre2.length ≤ "sym (in App) ".data.length ∧
      (pre2.length = "sym (in App) ".data.length →
        A = "Foo".data ∧ e2 = "mm".data ∧ d2 = "42".data))
    ∧ parse_symbol_output "-[Foo bar] (in MatrixTestApp) (Foo.mm:42)" =
        (some "Foo.mm", some "42") :=
  ⟨c3_amended.2.2 (String.mk ("sym (in App) ".data ++ ('(' :: ("Foo".data ++
      ('.' :: ("mm".data ++ (':' :: ("42".data ++ (')' :: [])))))))))
    "sym (in App) ".data "Foo".data "mm".data "42".data []
    rfl (by decide) (by decide) (by decide) (by decide) (by decide),
  by decide⟩

